import Mathlib

/-
  Verification development for the evolocity plotting module
  (src/evolocity/plotting/evolocity_plotting.py).

  The module has four functions: `shortest_path` (the Path Resolver),
  `draw_path` (the Path Renderer), `residue_scores` (the Residue Score
  Heatmap) and `residue_categories` (the Residue Category Overlay).
  Each is shallowly embedded below: matrices become functions over `Fin`
  or lists of lists of rationals, the mutable score matrix becomes
  explicit state passing over `WithTop ℚ` (`⊤` models the `float('inf')`
  sentinel), fallible code returns `Except`/`Option`, and the drawing
  side effects of `draw_path` are recorded as an explicit event list.
-/

namespace Evolocity

/-! ## Path Resolver (`shortest_path`, lines 11-38)

`adata.uns` entries `{vkey}_graph` / `{vkey}_graph_neg` are modelled as
`Option` fields (a `none` lookup is the Python `KeyError`).  The
neighbor-distance matrix and both velocity graphs are `n × n` rational
matrices.  `networkx.convert_matrix.from_scipy_sparse_matrix(T)` with the
default `create_using=None` builds an *undirected* `nx.Graph` whose edges
are the stored (nonzero) entries of `T`, in either orientation; scipy's
sparse subtraction eliminates entries that cancel to zero, so the edge
relation is `T i j ≠ 0 ∨ T j i ≠ 0`.  `nx.shortest_path` with no weight
argument is an unweighted (hop-count) breadth-first search; it is
embedded as a layered reachability computation plus path extraction. -/

abbrev QMat (n : Nat) := Fin n → Fin n → ℚ

/-- The fields of the `AnnData` object consumed by `shortest_path`:
the neighbor-distance matrix (`get_neighs(adata, 'distances')`) and the
two optional `uns` entries. -/
structure VeloAnnData (n : Nat) where
  distances : QMat n
  velocity_graph : Option (QMat n)
  velocity_graph_neg : Option (QMat n)

/-- `T = adata.uns[f'{vkey}_graph'] - adata.uns[f'{vkey}_graph_neg']`. -/
def diffT {n : Nat} (g gneg : QMat n) : QMat n := fun i j => g i j - gneg i j

/-- Edge test of the undirected `nx.Graph` built by
`from_scipy_sparse_matrix` from the signed difference matrix `T`:
the pair `{i, j}` is an edge when either oriented entry is nonzero. -/
def adjB {n : Nat} (T : QMat n) (i j : Fin n) : Bool :=
  decide (T i j ≠ 0) || decide (T j i ≠ 0)

/-- One breadth-first expansion step: a node is covered after the step
if it was already covered or is adjacent to a covered node. -/
def nbhd {n : Nat} (A : Fin n → Fin n → Bool) (S : Finset (Fin n)) : Finset (Fin n) :=
  S ∪ Finset.univ.filter (fun v => ∃ u ∈ S, A u v = true)

/-- Nodes reachable from `s` in at most `k` hops. -/
def reach {n : Nat} (A : Fin n → Fin n → Bool) (s : Fin n) : Nat → Finset (Fin n)
  | 0 => {s}
  | k + 1 => nbhd A (reach A s k)

/-- Search for the least `j ≥ k` (within `fuel` candidates) with
`t ∈ reach A s j`: the hop distance from `s` to `t`. -/
def findDist {n : Nat} (A : Fin n → Fin n → Bool) (s t : Fin n) : Nat → Nat → Option Nat
  | _, 0 => none
  | k, fuel + 1 => if t ∈ reach A s k then some k else findDist A s t (k + 1) (fuel)

/-- A predecessor of `v` lying `k` hops from `s`. -/
def predFind {n : Nat} (A : Fin n → Fin n → Bool) (s : Fin n) (k : Nat) (v : Fin n) :
    Option (Fin n) :=
  (List.finRange n).find? (fun u => decide (u ∈ reach A s k) && A u v)

/-- Extract a breadth-first path ending at `v`, walking predecessors back
towards `s` from layer `k`. -/
def pathAux {n : Nat} (A : Fin n → Fin n → Bool) (s : Fin n) : Nat → Fin n → List (Fin n)
  | 0, v => [v]
  | k + 1, v =>
    if v ∈ reach A s k then pathAux A s k v
    else
      match predFind A s k v with
      | some u => pathAux A s k u ++ [v]
      | none => [v]

/-- `nx.algorithms.shortest_paths.generic.shortest_path(G, source, target)`
with no weight: a hop-minimal path, or `none` (`NetworkXNoPath`) when the
target is unreachable. -/
def bfsPath {n : Nat} (A : Fin n → Fin n → Bool) (s t : Fin n) : Option (List (Fin n)) :=
  match findDist A s t 0 n with
  | none => none
  | some d => some (pathAux A s d t)

/-- The distinct ways `shortest_path` can raise. -/
inductive PathErr where
  | corruptedNeighbors
  | missingVelocityGraph
  | keyErrorGraphNeg
  | noPath
deriving DecidableEq

/-- Lines 11-38.  The corrupted-neighbor-graph check
`np.min((get_neighs(adata, 'distances') > 0).sum(1).A1) == 0` fires when
some row of the distance matrix has no positive entry; the
`f'{vkey}_graph' not in adata.uns` check follows; then
`adata.uns[f'{vkey}_graph_neg']` is looked up (`KeyError` when absent)
and the breadth-first search runs on the difference graph. -/
def shortest_path {n : Nat} (adata : VeloAnnData n) (source_idx target_idx : Fin n) :
    Except PathErr (List (Fin n)) :=
  if ∃ i, ∀ j, ¬ 0 < adata.distances i j then .error .corruptedNeighbors
  else
    match adata.velocity_graph with
    | none => .error .missingVelocityGraph
    | some g =>
      match adata.velocity_graph_neg with
      | none => .error .keyErrorGraphNeg
      | some gneg =>
        match bfsPath (adjB (diffT g gneg)) source_idx target_idx with
        | none => .error .noPath
        | some p => .ok p

/-- A hop path from `s` to `t` in the undirected graph with edge test `A`. -/
def UPath {n : Nat} (A : Fin n → Fin n → Bool) (s t : Fin n) (l : List (Fin n)) : Prop :=
  l.head? = some s ∧ l.getLast? = some t ∧ l.Chain' (fun a b => A a b = true)

/-! ## Concrete instances for the Path Resolver claims -/

/-- A healthy neighbor-distance matrix: every entry positive. -/
def exDistOk : QMat 2 := fun _ _ => 1

/-- A transition matrix with the single directed edge `0 → 1`. -/
def exGpos : QMat 2 := fun i j => if i = 0 ∧ j = 1 then 1 else 0

/-- An all-zero negative transition graph. -/
def exGneg : QMat 2 := fun _ _ => 0

/-- Dataset with one directed edge `0 → 1` and a healthy neighbor graph. -/
def exVelo : VeloAnnData 2 := ⟨exDistOk, some exGpos, some exGneg⟩

/-- Distance matrix whose second row has no positive entry while the
first row is positive (so not every row is zero). -/
def exDistBad : QMat 2 := fun i _ => if i = 0 then 1 else 0

/-! ## Path Renderer (`draw_path`, lines 41-87)

The drawing surface is modelled by an explicit record of side effects:
whether `plt.figure()` was called, and the ordered list of drawing calls
(`ax.arrow` / `ax.scatter`) with the numeric style arguments that the
claims mention. -/

/-- One `ax.arrow(x, y, dx, dy, width=linewidth, head_width=0, ...,
zorder=5)` call. -/
structure Arrow where
  x : ℚ
  y : ℚ
  dx : ℚ
  dy : ℚ
  width : ℚ
  headWidth : ℚ
  zorder : Nat
deriving DecidableEq

/-- One `ax.scatter(basis_x, basis_y, s=size, ..., zorder=10)` call. -/
structure ScatterLayer where
  pts : List (ℚ × ℚ)
  size : ℚ
  zorder : Nat
deriving DecidableEq

/-- A drawing call, in issue order. -/
inductive DrawEvent where
  | arrow (a : Arrow)
  | scatter (sc : ScatterLayer)
deriving DecidableEq

/-- The errors `draw_path` can raise itself or inherit from the resolver. -/
inductive DrawErr where
  | missingPathArgs
  | resolver (e : PathErr)
  | missingBasis
deriving DecidableEq

/-- The dataset fields consumed by `draw_path`: the resolver's fields plus
the optional 2-D embedding `adata.obsm[f'X_{basis}']`. -/
structure DrawData (n : Nat) where
  velo : VeloAnnData n
  obsm : Option (Fin n → ℚ × ℚ)

/-- Outcome of a `draw_path` call: the raised error (if any), whether a
fresh figure was created, and the drawing calls that were issued. -/
structure DrawResult where
  err : Option DrawErr
  createdFigure : Bool
  events : List DrawEvent
deriving DecidableEq

/-- The arrow drawn from point `p` to point `q`:
`dx, dy = basis_x[idx + 1] - x, basis_y[idx + 1] - y`. -/
def mkArrowSeg (p q : ℚ × ℚ) (lw : ℚ) : Arrow :=
  ⟨p.1, p.2, q.1 - p.1, q.2 - p.2, lw, 0, 5⟩

/-- Lines 76-81: `for idx, (x, y) in enumerate(zip(basis_x, basis_y)):
if idx < len(basis_x) - 1: ax.arrow(...)`. -/
def arrowsOf (pts : List (ℚ × ℚ)) (lw : ℚ) : List Arrow :=
  pts.enum.filterMap fun iq =>
    if iq.1 < pts.length - 1 then some (mkArrowSeg iq.2 (pts.getD (iq.1 + 1) iq.2) lw)
    else none

/-- Lines 64-85: figure creation when no axis is given, the embedding
presence check, the arrow loop, and the final scatter layer. -/
def drawResolved {n : Nat} (coords? : Option (Fin n → ℚ × ℚ)) (path : List (Fin n))
    (axGiven : Bool) (size lw : ℚ) : DrawResult :=
  let created := !axGiven
  match coords? with
  | none => ⟨some .missingBasis, created, []⟩
  | some coords =>
    let pts := path.map coords
    ⟨none, created,
      (arrowsOf pts lw).map DrawEvent.arrow ++ [DrawEvent.scatter ⟨pts, size, 10⟩]⟩

/-- Lines 41-87.  The argument check
`path is None and (source_idx is None or target_idx is None)` comes first,
then the optional delegation to `shortest_path`, then figure creation,
then the embedding check and the drawing calls. -/
def draw_path {n : Nat} (adata : DrawData n) (path? : Option (List (Fin n)))
    (source_idx target_idx : Option (Fin n)) (axGiven : Bool) (size lw : ℚ) :
    DrawResult :=
  match path?, source_idx, target_idx with
  | none, some s, some t =>
    match shortest_path adata.velo s t with
    | .error e => ⟨some (.resolver e), false, []⟩
    | .ok p => drawResolved adata.obsm p axGiven size lw
  | none, _, _ => ⟨some .missingPathArgs, false, []⟩
  | some p, _, _ => drawResolved adata.obsm p axGiven size lw

/-- A one-observation dataset with no embedding annotation. -/
def exDrawNoBasis : DrawData 1 := ⟨⟨fun _ _ => 1, none, none⟩, none⟩

/-- A one-observation dataset with an embedding annotation. -/
def exDrawOk : DrawData 1 := ⟨⟨fun _ _ => 1, none, none⟩, some fun _ => (2, 3)⟩

/-! ## Residue Score Heatmap (`residue_scores`, lines 90-134)

The score matrix `adata.uns[key]` is a list of rows of rationals.
`AnnData(adata.uns[key])` converts the array to AnnData's default dtype,
copying exactly when the dtype differs (anndata: "if type doesn't match,
a copy is made, otherwise, use a view"); the Boolean `dtypeMatches`
records whether the stored array already has that dtype, i.e. whether
`scores.X` aliases the stored array.  Slicing (`scores[score_sum >=
cutoff]`) produces an AnnData view, and writing to a view's `X` triggers
anndata's copy-on-write, so the filtered branch never touches the stored
matrix. -/

/-- `np.min` of a list (0 on the empty list, which numpy rejects). -/
def minD : List ℚ → ℚ
  | [] => 0
  | x :: xs => xs.foldl min x

/-- `np.max` of a list (0 on the empty list, which numpy rejects). -/
def maxD : List ℚ → ℚ
  | [] => 0
  | x :: xs => xs.foldl max x

/-- `np.min(scores.X)` over the whole matrix. -/
def matMin (M : List (List ℚ)) : ℚ := minD M.flatten

/-- `np.max(scores.X)` over the whole matrix. -/
def matMax (M : List (List ℚ)) : ℚ := maxD M.flatten

/-- Line 113: `end = max(abs(np.min(scores.X)), np.max(scores.X))`. -/
def endBound (M : List (List ℚ)) : ℚ := max |matMin M| (matMax M)

/-- Line 114: `scores.X /= end`. -/
def normalizeHeatmap (M : List (List ℚ)) : List (List ℚ) :=
  M.map fun row => row.map fun x => x / endBound M

/-- One row of `np.abs(scores.X).sum(1)`. -/
def absRowSum (row : List ℚ) : ℚ := (row.map fun x => |x|).sum

/-- `np.percentile(score_sum, percentile_keep)` with numpy's default
linear interpolation between consecutive order statistics. -/
def npPercentile (l : List ℚ) (p : ℚ) : ℚ :=
  match l.insertionSort (· ≤ ·) with
  | [] => 0
  | x :: xs =>
    let m := (x :: xs).length
    let h : ℚ := (m - 1 : ℚ) * p / 100
    let i : ℤ := ⌊h⌋
    let lo := (x :: xs).getD i.toNat x
    let hi := (x :: xs).getD (i.toNat + 1) lo
    lo + (h - (i : ℚ)) * (hi - lo)

/-- Lines 98-114, data flow only: returns the displayed (normalized)
matrix and the matrix left in `adata.uns[key]` after the call.  With
`percentile_keep > 0` the row filter runs first and the stored matrix is
untouched (view plus copy-on-write); otherwise `scores.X /= end` divides
the array held by the `AnnData`, which is the stored array itself exactly
when no dtype conversion occurred. -/
def residue_scores (stored : List (List ℚ)) (dtypeMatches : Bool)
    (percentile_keep : ℚ) : List (List ℚ) × List (List ℚ) :=
  if 0 < percentile_keep then
    let sums := stored.map absRowSum
    let cutoff := npPercentile sums percentile_keep
    let filtered := stored.filter fun row => cutoff ≤ absRowSum row
    (normalizeHeatmap filtered, stored)
  else
    (normalizeHeatmap stored, if dtypeMatches then normalizeHeatmap stored else stored)

/-- A concrete all-positive score matrix. -/
def exScores : List (List ℚ) := [[1, 2]]

/-! ## Residue Category Overlay (`residue_categories`, lines 136-176)

The score matrix is a total function on cells `(position, category)`;
its values live in `WithTop ℚ`, with `⊤` playing `float('inf')`, and the
stored matrix (finite float scores) is coerced from `ℚ`.  The destructive
`while` loop becomes explicit state passing with a fuel bound, since the
Python loop can diverge.  The saved `sc.pl.umap(..., save=...)` artifacts
are recorded as the list of positions plotted. -/

/-- Errors of the reference-alignment scan (lines 147-153): the `assert`
and the `seq_ref[ref_idx]` IndexError that precedes it. -/
inductive RefErr where
  | assertFail
  | indexError
deriving DecidableEq

/-- Lines 147-153: scan the gapped sequence left to right with column
counter `idx`, skip `'-'`, compare each real character against
`seq_ref[ref_idx]`, record `pos2msa[ref_idx] = idx` and advance the
ungapped counter.  The insertion-ordered dict is an association list. -/
def pos2msaGo (seq_ref : List Char) :
    List Char → Nat → Nat → Except RefErr (List (Nat × Nat))
  | [], _, _ => .ok []
  | ch :: rest, idx, ref_idx =>
    if ch = '-' then pos2msaGo seq_ref rest (idx + 1) ref_idx
    else
      match seq_ref[ref_idx]? with
      | none => .error .indexError
      | some c0 =>
        if ch = c0 then
          match pos2msaGo seq_ref rest (idx + 1) (ref_idx + 1) with
          | .error e => .error e
          | .ok tail => .ok ((ref_idx, idx) :: tail)
        else .error .assertFail

/-- The whole reference-mapping block, starting both counters at 0. -/
def buildPos2msa (seq_ref seq_ref_msa : List Char) : Except RefErr (List (Nat × Nat)) :=
  pos2msaGo seq_ref seq_ref_msa 0 0

/-- The gapped sequence with gap characters removed. -/
def stripGaps (l : List Char) : List Char := l.filter (fun ch => ch ≠ '-')

/-- Column indices of the non-gap characters, counting columns from
`idx`: the `i`-th entry is the column of the `i`-th non-gap character. -/
def nonGapCols : List Char → Nat → List Nat
  | [], _ => []
  | ch :: rest, idx =>
    if ch = '-' then nonGapCols rest (idx + 1) else idx :: nonGapCols rest (idx + 1)

/-- A cell of the residue-score matrix: (position row, category column). -/
abbrev Cell (r c : Nat) := Fin r × Fin c

/-- All cells in row-major (numpy C) order. -/
def allCells (r c : Nat) : List (Cell r c) :=
  (List.finRange r).flatMap fun i => (List.finRange c).map fun j => (i, j)

/-- Fold keeping the first strictly-smaller element, so ties keep the
earlier (row-major) cell, as `np.argmin` does. -/
def argminGo {r c : Nat} (M : Cell r c → WithTop ℚ) :
    List (Cell r c) → Cell r c → Cell r c
  | [], best => best
  | x :: xs, best => argminGo M xs (if M x < M best then x else best)

/-- `np.unravel_index(np.argmin(scores), scores.shape)`: the row-major
first cell holding the global minimum, or `none` on an empty matrix
(where numpy raises). -/
def argminM {r c : Nat} (M : Cell r c → WithTop ℚ) : Option (Cell r c) :=
  match allCells r c with
  | [] => none
  | x :: xs => some (argminGo M xs x)

/-- `scores[min_idx] = float('inf')` (line 160). -/
def setTop {r c : Nat} (M : Cell r c → WithTop ℚ) (e : Cell r c) :
    Cell r c → WithTop ℚ :=
  fun x => if x = e then ⊤ else M x

/-- Result of the auto-selection `while` loop: normal exit with the
recorded rows and the mutated matrix, the numpy error on an empty
matrix, or fuel exhaustion (the Python loop still running). -/
inductive SelRes (r c : Nat) where
  | success (seen : Finset (Fin r)) (scores : Cell r c → WithTop ℚ)
  | emptyErr
  | fuelOut

/-- Lines 158-167: `while len(pos_seen) < n_plot:` locate the minimum
cell, overwrite it with the sentinel, and insert its row into `pos_seen`
(the `continue` on an already-recorded row only skips the log line). -/
def selectLoop {r c : Nat} (n_plot : Nat) :
    Nat → (Cell r c → WithTop ℚ) → Finset (Fin r) → SelRes r c
  | fuel, M, seen =>
    if n_plot ≤ seen.card then .success seen M
    else
      match fuel with
      | 0 => .fuelOut
      | fuel + 1 =>
        match argminM M with
        | none => .emptyErr
        | some e => selectLoop n_plot fuel (setTop M e) (insert e.1 seen)

/-- Number of cells not yet overwritten with the sentinel: the progress
measure of the auto-selection loop. -/
def cntNonTop {r c : Nat} (M : Cell r c → WithTop ℚ) : Nat :=
  (Finset.univ.filter fun e : Cell r c => M e ≠ ⊤).card

/-- The failure modes of `residue_categories`. -/
inductive CatErr where
  | assertFail
  | indexErrorRef
  | lookupError
  | argminEmpty
  | keyErrorPos
  | indexErrorSeq
  | outOfFuel
deriving DecidableEq

/-- The dataset fields consumed by `residue_categories`.  The
`onehot_vocabulary` is total on columns (the spec invariant that the
vocabulary aligns 1:1 with the score-matrix columns); it is consulted
only for the log line. -/
structure CatData (r c : Nat) where
  seq : List (List Char)
  seqs_msa : List (List Char)
  residue_scores : Cell r c → ℚ
  onehot_vocabulary : Fin c → Char

/-- Outcome of a `residue_categories` call: the raised error (if any),
the positions for which a plot file was written (in order), the new
per-observation columns `pos{p}`, and the score matrix left in
`adata.uns['residue_scores']`. -/
structure CatResult (r c : Nat) where
  err : Option CatErr
  files : List Nat
  obsCols : List (Nat × List Char)
  scoresAfter : Cell r c → WithTop ℚ

/-- The column `[seq[col] for seq in adata.obs['seqs_msa']]`; `none` when
some sequence is too short (IndexError). -/
def msaColumn (seqs_msa : List (List Char)) (col : Nat) : Option (List Char) :=
  seqs_msa.mapM fun s => s[col]?

/-- Lines 170-176: for each position derive the observation column and
save one plot; in reference mode the column index is `pos2msa[pos]`
(KeyError when absent).  Files already saved stay saved when a later
position fails. -/
def renderLoop {r c : Nat} (adata : CatData r c)
    (pos2msa? : Option (List (Nat × Nat))) (scores : Cell r c → WithTop ℚ) :
    List Nat → List Nat → List (Nat × List Char) → CatResult r c
  | [], files, cols => ⟨none, files, cols, scores⟩
  | pos :: rest, files, cols =>
    match pos2msa? with
    | none =>
      match msaColumn adata.seqs_msa pos with
      | none => ⟨some .indexErrorSeq, files, cols, scores⟩
      | some column =>
        renderLoop adata pos2msa? scores rest (files ++ [pos]) (cols ++ [(pos, column)])
    | some m =>
      match m.lookup pos with
      | none => ⟨some .keyErrorPos, files, cols, scores⟩
      | some col =>
        match msaColumn adata.seqs_msa col with
        | none => ⟨some .indexErrorSeq, files, cols, scores⟩
        | some column =>
          renderLoop adata pos2msa? scores rest (files ++ [pos]) (cols ++ [(pos, column)])

/-- Lines 155-176 after the reference block: use explicit positions when
given, otherwise run the destructive auto-selection and render the
recorded rows in ascending order (`positions = sorted(pos_seen)`). -/
def residueCatSelect {r c : Nat} (fuel : Nat) (adata : CatData r c)
    (positions? : Option (List Nat)) (n_plot : Nat)
    (pos2msa? : Option (List (Nat × Nat))) (scores0 : Cell r c → WithTop ℚ) :
    CatResult r c :=
  match positions? with
  | some ps => renderLoop adata pos2msa? scores0 ps [] []
  | none =>
    match selectLoop n_plot fuel scores0 ∅ with
    | .success seen M1 =>
      renderLoop adata pos2msa? M1 ((seen.sort (· ≤ ·)).map Fin.val) [] []
    | .emptyErr => ⟨some .argminEmpty, [], [], scores0⟩
    | .fuelOut => ⟨some .outOfFuel, [], [], scores0⟩

/-- Lines 136-176.  The reference-alignment block runs first; the
auto-selection (with its fuel bound) and the rendering loop follow. -/
def residue_categories {r c : Nat} (fuel : Nat) (adata : CatData r c)
    (positions? : Option (List Nat)) (n_plot : Nat) (reference : Option Nat) :
    CatResult r c :=
  let scores0 : Cell r c → WithTop ℚ := fun e => (adata.residue_scores e : WithTop ℚ)
  match reference with
  | some ri =>
    match adata.seq[ri]?, adata.seqs_msa[ri]? with
    | some raw, some msa =>
      match buildPos2msa raw msa with
      | .error .assertFail => ⟨some .assertFail, [], [], scores0⟩
      | .error .indexError => ⟨some .indexErrorRef, [], [], scores0⟩
      | .ok m => residueCatSelect fuel adata positions? n_plot (some m) scores0
    | _, _ => ⟨some .lookupError, [], [], scores0⟩
  | none => residueCatSelect fuel adata positions? n_plot none scores0

/-- A concrete 5 × 1 score matrix whose five cells hold `0, 1, 2, 3, 4`. -/
def exCat5 : CatData 5 1 :=
  ⟨[], [], fun e => (e.1 : ℚ), fun _ => 'A'⟩

/-- A dataset whose reference raw sequence and gapped sequence disagree. -/
def exCatBadRef : CatData 1 1 :=
  ⟨[['A']], [['C']], fun _ => 0, fun _ => 'A'⟩

/-! ## Lemmas about the breadth-first search -/

section BFS

variable {n : Nat} (A : Fin n → Fin n → Bool) (s : Fin n)

theorem mem_nbhd {S : Finset (Fin n)} {v : Fin n} :
    v ∈ nbhd A S ↔ v ∈ S ∨ ∃ u ∈ S, A u v = true := by
  simp [nbhd]

theorem reach_succ_subset (k : Nat) : reach A s k ⊆ reach A s (k + 1) := by
  rw [show reach A s (k + 1) = nbhd A (reach A s k) from rfl]
  exact Finset.subset_union_left

theorem reach_mono {k m : Nat} (h : k ≤ m) : reach A s k ⊆ reach A s m := by
  induction m with
  | zero => simp [Nat.le_zero.mp h]
  | succ m ih =>
    rcases Nat.lt_or_ge k (m + 1) with hk | hk
    · exact (ih (Nat.lt_succ_iff.mp hk)).trans (reach_succ_subset A s m)
    · have : k = m + 1 := Nat.le_antisymm h hk
      simp [this]

theorem reach_fix {k : Nat} (h : reach A s (k + 1) = reach A s k) :
    ∀ m, reach A s (k + m) = reach A s k := by
  intro m
  induction m with
  | zero => rfl
  | succ m ih =>
    have : reach A s (k + (m + 1)) = nbhd A (reach A s (k + m)) := rfl
    rw [this, ih]
    exact h

theorem reach_grow (k : Nat) :
    reach A s (k + 1) = reach A s k ∨ k + 1 ≤ (reach A s k).card := by
  induction k with
  | zero => simp [reach]
  | succ k ih =>
    by_cases heq : reach A s (k + 1) = reach A s k
    · left
      show nbhd A (reach A s (k + 1)) = reach A s (k + 1)
      rw [heq]
      exact heq
    · rcases ih with h | h
      · exact absurd h heq
      · right
        have hsub : reach A s k ⊂ reach A s (k + 1) :=
          (Finset.ssubset_iff_of_subset (reach_succ_subset A s k)).2 (by
            rcases Finset.exists_of_ssubset
                (lt_of_le_of_ne (reach_succ_subset A s k) (Ne.symm heq)) with ⟨x, hx1, hx2⟩
            exact ⟨x, hx1, hx2⟩)
        have := Finset.card_lt_card hsub
        omega

theorem reach_stab (m : Nat) : reach A s m ⊆ reach A s (n - 1) := by
  have hn : 0 < n := s.pos
  have hfix : reach A s ((n - 1) + 1) = reach A s (n - 1) := by
    rcases reach_grow A s (n - 1) with h | h
    · exact h
    · have hcard : (reach A s (n - 1)).card = n := by
        have hle : (reach A s (n - 1)).card ≤ n := by
          simpa using Finset.card_le_univ (reach A s (n - 1))
        omega
      have huniv : reach A s (n - 1) = Finset.univ :=
        Finset.eq_univ_of_card _ (by simpa using hcard)
      apply Finset.Subset.antisymm
      · rw [huniv]; exact Finset.subset_univ _
      · exact reach_succ_subset A s (n - 1)
  rcases le_or_lt m (n - 1) with hm | hm
  · exact reach_mono A s hm
  · have : reach A s m = reach A s (n - 1) := by
      have := reach_fix A s hfix (m - (n - 1))
      rwa [Nat.add_sub_cancel' (Nat.le_of_lt hm)] at this
    rw [this]

theorem reach_path : ∀ (k : Nat) (v : Fin n), v ∈ reach A s k →
    UPath A s v (pathAux A s k v) ∧ (pathAux A s k v).length ≤ k + 1 := by
  intro k
  induction k with
  | zero =>
    intro v hv
    have : v = s := by simpa [reach] using hv
    subst this
    exact ⟨⟨rfl, rfl, List.chain'_singleton v⟩, by simp [pathAux]⟩
  | succ k ih =>
    intro v hv
    by_cases hmem : v ∈ reach A s k
    · have := ih v hmem
      simp only [pathAux, if_pos hmem]
      exact ⟨this.1, this.2.trans (Nat.le_succ _)⟩
    · have hx : ∃ u ∈ reach A s k, A u v = true := by
        rcases (mem_nbhd A).1 hv with h | h
        · exact absurd h hmem
        · exact h
      have hfind : predFind A s k v ≠ none := by
        intro hnone
        rcases hx with ⟨u, hu1, hu2⟩
        have := List.find?_eq_none.1 hnone u (List.mem_finRange u)
        simp [hu1, hu2] at this
      rcases Option.ne_none_iff_exists'.1 hfind with ⟨u, hu⟩
      have hup : u ∈ reach A s k ∧ A u v = true := by
        have := List.find?_some hu
        simpa using this
      have hiu := ih u hup.1
      rcases hiu with ⟨⟨hh, hl, hc⟩, hlen⟩
      simp only [pathAux, if_neg hmem, hu]
      rcases hp : pathAux A s k u with _ | ⟨a, rest⟩
      · rw [hp] at hh; simp at hh
      · rw [hp] at hh hl hc hlen
        have ha : a = s := by simpa using hh
        refine ⟨⟨by simp [ha], ?_, ?_⟩, by simp at hlen ⊢; omega⟩
        · show ((a :: rest) ++ [v]).getLast? = some v
          exact List.getLast?_concat _
        rw [List.chain'_append]
        refine ⟨hc, List.chain'_singleton v, ?_⟩
        intro x hx' y hy'
        simp at hy'
        subst hy'
        rw [hl] at hx'
        simp at hx'
        subst hx'
        exact hup.2

theorem path_reach : ∀ (l : List (Fin n)) (v : Fin n),
    l.Chain' (fun a b => A a b = true) → l.head? = some s → l.getLast? = some v →
    v ∈ reach A s (l.length - 1) := by
  intro l
  induction l using List.reverseRecOn with
  | nil => intro v _ h; simp at h
  | append_singleton l x ih =>
    intro v hchain hhead hlast
    have hvx : v = x := by
      rw [List.getLast?_concat] at hlast
      exact (Option.some_inj.1 hlast).symm
    subst hvx
    rcases l with _ | ⟨a, rest⟩
    · have : v = s := by simpa using hhead
      subst this
      simp [reach]
    · rw [List.chain'_append] at hchain
      rcases hchain with ⟨hc1, _, hc3⟩
      have hne : (a :: rest) ≠ [] := by simp
      rcases List.getLast?_isSome.2 hne |> Option.isSome_iff_exists.1 with ⟨u, hu⟩
      have hAu : A u v = true := hc3 u hu v rfl
      have hhead' : (a :: rest).head? = some s := by simpa using hhead
      have hmem := ih u hc1 hhead' hu
      have : v ∈ nbhd A (reach A s ((a :: rest).length - 1)) :=
        (mem_nbhd A).2 (Or.inr ⟨u, hmem, hAu⟩)
      have hlen : ((a :: rest) ++ [v]).length - 1 = ((a :: rest).length - 1) + 1 := by
        simp
      rw [hlen]
      exact this

theorem findDist_some : ∀ (fuel k d : Nat) (t : Fin n),
    findDist A s t k fuel = some d →
    k ≤ d ∧ t ∈ reach A s d ∧ ∀ j, k ≤ j → j < d → t ∉ reach A s j := by
  intro fuel
  induction fuel with
  | zero => intro k d t h; simp [findDist] at h
  | succ fuel ih =>
    intro k d t h
    rw [findDist] at h
    by_cases hmem : t ∈ reach A s k
    · rw [if_pos hmem] at h
      have : k = d := Option.some_inj.1 h
      subst this
      exact ⟨le_refl _, hmem, fun j h1 h2 => absurd (Nat.lt_of_le_of_lt h1 h2) (lt_irrefl _)⟩
    · rw [if_neg hmem] at h
      rcases ih (k + 1) d t h with ⟨h1, h2, h3⟩
      refine ⟨by omega, h2, ?_⟩
      intro j hj1 hj2
      rcases Nat.eq_or_lt_of_le hj1 with rfl | hj
      · exact hmem
      · exact h3 j hj hj2

theorem findDist_none : ∀ (fuel k : Nat) (t : Fin n),
    findDist A s t k fuel = none → ∀ j, k ≤ j → j < k + fuel → t ∉ reach A s j := by
  intro fuel
  induction fuel with
  | zero => intro k t _ j h1 h2; omega
  | succ fuel ih =>
    intro k t h j hj1 hj2
    rw [findDist] at h
    by_cases hmem : t ∈ reach A s k
    · rw [if_pos hmem] at h; exact absurd h (by simp)
    · rw [if_neg hmem] at h
      rcases Nat.eq_or_lt_of_le hj1 with rfl | hj
      · exact hmem
      · exact ih (k + 1) t h j hj (by omega)

/-- The breadth-first search returns a hop-minimal path whenever the
target is reachable in the undirected graph. -/
theorem bfsPath_correct {t : Fin n} (hreach : ∃ l, UPath A s t l) :
    ∃ p, bfsPath A s t = some p ∧ UPath A s t p ∧
      ∀ q, UPath A s t q → p.length ≤ q.length := by
  rcases hreach with ⟨l, hl⟩
  have hn : 0 < n := s.pos
  have hmem : t ∈ reach A s (n - 1) := by
    have := path_reach A s l t hl.2.2 hl.1 hl.2.1
    exact reach_stab A s _ this
  have hfind : findDist A s t 0 n ≠ none := by
    intro hnone
    exact findDist_none A s n 0 t hnone (n - 1) (Nat.zero_le _) (by omega) hmem
  rcases Option.ne_none_iff_exists'.1 hfind with ⟨d, hd⟩
  rcases findDist_some A s n 0 d t hd with ⟨_, hdm, hdleast⟩
  rcases reach_path A s d t hdm with ⟨hup, hlen⟩
  refine ⟨pathAux A s d t, by rw [bfsPath, hd], hup, ?_⟩
  intro q hq
  have hq1 : q.length ≥ 1 := by
    rcases q with _ | ⟨a, rest⟩
    · simp [UPath] at hq
    · simp
  have hqreach : t ∈ reach A s (q.length - 1) := path_reach A s q t hq.2.2 hq.1 hq.2.1
  have hdle : d ≤ q.length - 1 := by
    by_contra hcon
    exact hdleast (q.length - 1) (Nat.zero_le _) (by omega) hqreach
  omega

end BFS

/-! ## Claim theorems for the Path Resolver -/

/-- C1 counterexample: the Path Resolver built from the dataset whose only
directed edge is `0 → 1` returns the path `[1, 0]` from source `1` to
target `0`, whose single consecutive pair `(1, 0)` is *not* an edge of the
directed graph of the signed difference matrix (the matrix entry at
`(1, 0)` is zero).  The claim's directed-graph reading is false: the code
builds an undirected `nx.Graph` (the default of
`from_scipy_sparse_matrix`). -/
theorem C1_counterexample :
    shortest_path exVelo 1 0 = .ok [1, 0] ∧
      ¬ List.Chain' (fun a b => diffT exGpos exGneg a b ≠ 0) [(1 : Fin 2), 0] := by
  constructor
  · with_unfolding_all rfl
  · intro h
    have := (List.chain'_cons.1 h).1
    simp [diffT, exGpos, exGneg] at this

/-- C1 amended: when the two presence checks pass and the target is
reachable from the source in the *undirected* graph whose edges are the
pairs with a nonzero entry of the signed difference matrix in either
orientation, the Path Resolver returns a path that starts at the source,
ends at the target, follows edges of that undirected graph, and is
hop-minimal among all undirected source-to-target paths. -/
theorem C1_amended_shortest_path {n : Nat} (dist : QMat n) (g gneg : QMat n)
    (s t : Fin n)
    (hok : ¬ ∃ i, ∀ j, ¬ 0 < dist i j)
    (hconn : ∃ l, UPath (adjB (diffT g gneg)) s t l) :
    ∃ p, shortest_path ⟨dist, some g, some gneg⟩ s t = .ok p ∧
      UPath (adjB (diffT g gneg)) s t p ∧
      ∀ q, UPath (adjB (diffT g gneg)) s t q → p.length ≤ q.length := by
  rcases bfsPath_correct (adjB (diffT g gneg)) s hconn with ⟨p, hp, hup, hmin⟩
  refine ⟨p, ?_, hup, hmin⟩
  simp only [shortest_path, if_neg hok, hp]

/-- C1 amended, witness: on the concrete two-node dataset the amended
theorem applies and produces a hop-minimal undirected path. -/
theorem C1_amended_witness :
    ∃ p, shortest_path ⟨exDistOk, some exGpos, some exGneg⟩ 1 0 = .ok p ∧
      UPath (adjB (diffT exGpos exGneg)) 1 0 p ∧
      ∀ q, UPath (adjB (diffT exGpos exGneg)) 1 0 q → p.length ≤ q.length :=
  C1_amended_shortest_path exDistOk exGpos exGneg 1 0 (by decide)
    ⟨[1, 0], rfl, rfl, List.chain'_cons.2
      ⟨by with_unfolding_all rfl, List.chain'_singleton _⟩⟩

/-- C4 counterexample: on a distance matrix whose second row has no
positive entry but whose first row is all ones — so *not* every row is
entirely zero — the Path Resolver still raises the corrupted-neighbor
error.  The code's check `np.min((dist > 0).sum(1).A1) == 0` fires as
soon as *some* row has no positive entry. -/
theorem C4_counterexample :
    shortest_path ⟨exDistBad, some exGpos, some exGneg⟩ 0 1 =
        .error .corruptedNeighbors ∧
      ¬ ∀ i j, exDistBad i j = 0 := by
  refine ⟨rfl, ?_⟩
  intro h
  have := h 0 0
  simp [exDistBad] at this

/-- C4 amended: the corrupted-neighbor error is raised iff *some* row of
the neighbor-distance matrix has no positive entry; when that check
fires the outcome is independent of both graph annotations (so no graph
construction is attempted), and when it passes but the transition-graph
annotation is absent the missing-prerequisite error is raised
independently of the negative graph annotation. -/
theorem C4_amended_check_order :
    (∀ (n : Nat) (adata : VeloAnnData n) (s t : Fin n),
        shortest_path adata s t = .error .corruptedNeighbors ↔
          ∃ i, ∀ j, ¬ 0 < adata.distances i j) ∧
    (∀ (n : Nat) (dist : QMat n) (g gneg g' gneg' : Option (QMat n)) (s t : Fin n),
        (∃ i, ∀ j, ¬ 0 < dist i j) →
        shortest_path ⟨dist, g, gneg⟩ s t = shortest_path ⟨dist, g', gneg'⟩ s t) ∧
    (∀ (n : Nat) (dist : QMat n) (gneg : Option (QMat n)) (s t : Fin n),
        ¬ (∃ i, ∀ j, ¬ 0 < dist i j) →
        shortest_path ⟨dist, none, gneg⟩ s t = .error .missingVelocityGraph) := by
  refine ⟨?_, ?_, ?_⟩
  · intro n adata s t
    obtain ⟨dist, vg, vgn⟩ := adata
    constructor
    · intro h
      by_contra hcon
      rcases vg with _ | g
      · simp only [shortest_path, if_neg hcon] at h
        simp at h
      · rcases vgn with _ | gneg
        · simp only [shortest_path, if_neg hcon] at h
          simp at h
        · simp only [shortest_path, if_neg hcon] at h
          rcases hb : bfsPath (adjB (diffT g gneg)) s t with _ | p
          · rw [hb] at h; simp at h
          · rw [hb] at h; simp at h
    · intro h
      simp only [shortest_path, if_pos h]
  · intro n dist g gneg g' gneg' s t h
    simp only [shortest_path, if_pos h]
  · intro n dist gneg s t h
    simp only [shortest_path, if_neg h]

/-- C4 amended, witness: instantiating the amended theorem on concrete
two-node datasets. -/
theorem C4_amended_witness :
    (shortest_path ⟨exDistBad, some exGpos, some exGneg⟩ 0 1 =
        .error .corruptedNeighbors ↔ ∃ i, ∀ j, ¬ 0 < exDistBad i j) ∧
    shortest_path ⟨exDistBad, some exGpos, some exGneg⟩ 0 1 =
        shortest_path ⟨exDistBad, none, none⟩ 0 1 ∧
    shortest_path ⟨exDistOk, none, some exGneg⟩ 0 1 =
        .error .missingVelocityGraph :=
  ⟨C4_amended_check_order.1 2 ⟨exDistBad, some exGpos, some exGneg⟩ 0 1,
   C4_amended_check_order.2.1 2 exDistBad (some exGpos) (some exGneg) none none 0 1
     (by decide),
   C4_amended_check_order.2.2 2 exDistOk (some exGneg) 0 1 (by decide)⟩

/-- C10: when the neighbor check passes and `{vkey}_graph` is present but
`{vkey}_graph_neg` is absent, the Path Resolver fails with the key-lookup
error coming from the dictionary access in the subtraction, not with the
missing-prerequisite validation error: only the positive graph's presence
is guarded. -/
theorem C10_graph_neg_key_error {n : Nat} (dist : QMat n) (g : QMat n) (s t : Fin n)
    (hok : ¬ ∃ i, ∀ j, ¬ 0 < dist i j) :
    shortest_path ⟨dist, some g, none⟩ s t = .error .keyErrorGraphNeg := by
  simp only [shortest_path, if_neg hok]

/-- C10 witness: concrete dataset with the positive graph present and the
negative graph absent. -/
theorem C10_witness :
    shortest_path ⟨exDistOk, some exGpos, none⟩ 0 1 = .error .keyErrorGraphNeg :=
  C10_graph_neg_key_error exDistOk exGpos 0 1 (by decide)

/-! ## Lemmas about the arrow loop of `draw_path` -/

theorem enumFrom_filterMap_idx {α β : Type _} :
    ∀ (l : List α) (k N : Nat) (f : Nat → β), k + l.length = N →
      (l.enumFrom k).filterMap
          (fun iq => if iq.1 < N - 1 then some (f iq.1) else none) =
        (List.range' k (l.length - 1)).map f := by
  intro l
  induction l with
  | nil => intro k N f _; rfl
  | cons a rest ih =>
    intro k N f h
    have hstep : List.enumFrom k (a :: rest) = (k, a) :: List.enumFrom (k + 1) rest := rfl
    rcases rest with _ | ⟨b, rest'⟩
    · have hk : ¬ k < N - 1 := by simp at h; omega
      simp [hstep, List.filterMap_cons, hk]
    · have hk : k < N - 1 := by simp at h; omega
      rw [hstep, List.filterMap_cons]
      simp only [if_pos hk]
      rw [ih (k + 1) N f (by simp at h ⊢; omega)]
      have h1 : (a :: b :: rest').length - 1 = rest'.length + 1 := by simp
      have h2 : (b :: rest').length - 1 = rest'.length := by simp
      rw [h1, h2, List.range'_succ]
      rfl

theorem arrowsOf_eq_rangeMap (pts : List (ℚ × ℚ)) (lw : ℚ) :
    arrowsOf pts lw = (List.range (pts.length - 1)).map
      (fun i => mkArrowSeg (pts.getD i (0, 0)) (pts.getD (i + 1) (0, 0)) lw) := by
  rw [arrowsOf]
  have hcongr :
      pts.enum.filterMap
          (fun iq => if iq.1 < pts.length - 1 then
            some (mkArrowSeg iq.2 (pts.getD (iq.1 + 1) iq.2) lw) else none) =
        pts.enum.filterMap
          (fun iq => if iq.1 < pts.length - 1 then
            some (mkArrowSeg (pts.getD iq.1 (0, 0)) (pts.getD (iq.1 + 1) (0, 0)) lw)
          else none) := by
    apply List.filterMap_congr
    intro iq hiq
    rcases iq with ⟨i, q⟩
    have hget : pts[i]? = some q := List.mk_mem_enum_iff_getElem?.1 hiq
    have hi : i < pts.length := by
      by_contra hcon
      rw [List.getElem?_eq_none (by omega)] at hget
      simp at hget
    have hiv : pts[i] = q := by
      rw [List.getElem?_eq_getElem hi] at hget
      exact Option.some_inj.1 hget
    by_cases hlt : i < pts.length - 1
    · have hd1 : pts.getD i (0, 0) = q := by rw [List.getD_eq_getElem pts _ hi, hiv]
      have hi1 : i + 1 < pts.length := by omega
      have hd2 : pts.getD (i + 1) q = pts.getD (i + 1) (0, 0) := by
        rw [List.getD_eq_getElem pts _ hi1, List.getD_eq_getElem pts _ hi1]
      simp only [if_pos hlt, hd1, hd2]
    · simp only [if_neg hlt]
  rw [hcongr]
  have := enumFrom_filterMap_idx pts 0 pts.length
    (fun i => mkArrowSeg (pts.getD i (0, 0)) (pts.getD (i + 1) (0, 0)) lw) (by omega)
  rw [show pts.enum = pts.enumFrom 0 from rfl, this, ← List.range_eq_range']

/-! ## Claim theorems for the Path Renderer -/

/-- C8: a successful `draw_path` call on an `n`-point path issues exactly
`n - 1` arrow calls — the `i`-th from point `i` to point `i + 1`, each a
plain directed segment with zero arrowhead width at z-order 5 — followed
by exactly one scatter call holding all `n` path points at z-order 10
(so the line layer sits below the point layer). -/
theorem C8_draw_path_render {n : Nat} (adata : DrawData n) (coords : Fin n → ℚ × ℚ)
    (p : List (Fin n)) (axGiven : Bool) (size lw : ℚ)
    (h : adata.obsm = some coords) :
    draw_path adata (some p) none none axGiven size lw =
      ⟨none, !axGiven,
        ((List.range ((p.map coords).length - 1)).map fun i =>
          DrawEvent.arrow (mkArrowSeg ((p.map coords).getD i (0, 0))
            ((p.map coords).getD (i + 1) (0, 0)) lw)) ++
        [DrawEvent.scatter ⟨p.map coords, size, 10⟩]⟩ ∧
    (p.map coords).length = p.length ∧
    (∀ a : Arrow,
        DrawEvent.arrow a ∈ (draw_path adata (some p) none none axGiven size lw).events →
        a.headWidth = 0 ∧ a.zorder = 5) ∧
    (∀ sc : ScatterLayer,
        DrawEvent.scatter sc ∈ (draw_path adata (some p) none none axGiven size lw).events →
        sc.pts = p.map coords ∧ sc.zorder = 10) := by
  have hmain : draw_path adata (some p) none none axGiven size lw =
      ⟨none, !axGiven,
        ((List.range ((p.map coords).length - 1)).map fun i =>
          DrawEvent.arrow (mkArrowSeg ((p.map coords).getD i (0, 0))
            ((p.map coords).getD (i + 1) (0, 0)) lw)) ++
        [DrawEvent.scatter ⟨p.map coords, size, 10⟩]⟩ := by
    simp only [draw_path, drawResolved, h, arrowsOf_eq_rangeMap, List.map_map]
    rfl
  refine ⟨hmain, List.length_map _ _, ?_, ?_⟩
  · intro a ha
    rw [hmain] at ha
    rcases List.mem_append.1 ha with hmem | hmem
    · rcases List.mem_map.1 hmem with ⟨i, _, hEq⟩
      have : mkArrowSeg ((p.map coords).getD i (0, 0))
          ((p.map coords).getD (i + 1) (0, 0)) lw = a := by
        injection hEq
      rw [← this]
      exact ⟨rfl, rfl⟩
    · simp at hmem
  · intro sc hsc
    rw [hmain] at hsc
    rcases List.mem_append.1 hsc with hmem | hmem
    · rcases List.mem_map.1 hmem with ⟨i, _, hEq⟩
      exact absurd hEq (by simp)
    · have hsc' : sc = (⟨p.map coords, size, 10⟩ : ScatterLayer) := by
        simpa using hmem
      rw [hsc']
      exact ⟨rfl, rfl⟩

/-- C8 witness: on a concrete 3-point path the renderer issues exactly 2
arrows followed by one scatter layer with 3 points. -/
theorem C8_witness :
    draw_path exDrawOk (some [0, 0, 0]) none none true 15 (1 / 1000) =
      ⟨none, false,
        [DrawEvent.arrow ⟨2, 3, 0, 0, 1 / 1000, 0, 5⟩,
         DrawEvent.arrow ⟨2, 3, 0, 0, 1 / 1000, 0, 5⟩,
         DrawEvent.scatter ⟨[(2, 3), (2, 3), (2, 3)], 15, 10⟩]⟩ :=
  ((C8_draw_path_render exDrawOk (fun _ => (2, 3)) [0, 0, 0] true 15
      (1 / 1000) rfl).1).trans (by with_unfolding_all rfl)

/-- C7 counterexample: when no axis is supplied and the requested
embedding is absent, `draw_path` raises the missing-embedding error but
has already created a fresh figure (`plt.figure()` runs before the
`f'X_{basis}' not in adata.obsm` check), so a failed call does create a
drawing surface. -/
theorem C7_counterexample :
    (draw_path exDrawNoBasis (some [0]) none none false 15 (1 / 1000)).err =
        some .missingBasis ∧
      (draw_path exDrawNoBasis (some [0]) none none false 15 (1 / 1000)).createdFigure =
        true := by
  constructor
  · rfl
  · rfl

/-! ## Lemmas about the heatmap normalization -/

theorem foldl_min_le_init : ∀ (l : List ℚ) (a : ℚ), l.foldl min a ≤ a := by
  intro l
  induction l with
  | nil => intro a; exact le_refl a
  | cons c l ih =>
    intro a
    calc (c :: l).foldl min a = l.foldl min (min a c) := rfl
    _ ≤ min a c := ih (min a c)
    _ ≤ a := min_le_left a c

theorem foldl_min_le_mem : ∀ (l : List ℚ) (a x : ℚ), x ∈ l → l.foldl min a ≤ x := by
  intro l
  induction l with
  | nil => intro a x hx; simp at hx
  | cons c l ih =>
    intro a x hx
    rcases List.mem_cons.1 hx with rfl | hx
    · calc (x :: l).foldl min a = l.foldl min (min a x) := rfl
      _ ≤ min a x := foldl_min_le_init l (min a x)
      _ ≤ x := min_le_right a x
    · exact ih (min a c) x hx

theorem init_le_foldl_max : ∀ (l : List ℚ) (a : ℚ), a ≤ l.foldl max a := by
  intro l
  induction l with
  | nil => intro a; exact le_refl a
  | cons c l ih =>
    intro a
    calc a ≤ max a c := le_max_left a c
    _ ≤ l.foldl max (max a c) := ih (max a c)
    _ = (c :: l).foldl max a := rfl

theorem mem_le_foldl_max : ∀ (l : List ℚ) (a x : ℚ), x ∈ l → x ≤ l.foldl max a := by
  intro l
  induction l with
  | nil => intro a x hx; simp at hx
  | cons c l ih =>
    intro a x hx
    rcases List.mem_cons.1 hx with rfl | hx
    · calc x ≤ max a x := le_max_right a x
      _ ≤ l.foldl max (max a x) := init_le_foldl_max l (max a x)
      _ = (x :: l).foldl max a := rfl
    · exact ih (max a c) x hx

theorem matMin_le {M : List (List ℚ)} {row : List ℚ} {x : ℚ}
    (hrow : row ∈ M) (hx : x ∈ row) : matMin M ≤ x := by
  have hmem : x ∈ M.flatten := List.mem_flatten.2 ⟨row, hrow, hx⟩
  rw [matMin]
  rcases hf : M.flatten with _ | ⟨y, ys⟩
  · rw [hf] at hmem; simp at hmem
  · rw [hf] at hmem
    rcases List.mem_cons.1 hmem with rfl | hmem
    · exact foldl_min_le_init ys x
    · exact foldl_min_le_mem ys y x hmem

theorem le_matMax {M : List (List ℚ)} {row : List ℚ} {x : ℚ}
    (hrow : row ∈ M) (hx : x ∈ row) : x ≤ matMax M := by
  have hmem : x ∈ M.flatten := List.mem_flatten.2 ⟨row, hrow, hx⟩
  rw [matMax]
  rcases hf : M.flatten with _ | ⟨y, ys⟩
  · rw [hf] at hmem; simp at hmem
  · rw [hf] at hmem
    rcases List.mem_cons.1 hmem with rfl | hmem
    · exact init_le_foldl_max ys x
    · exact mem_le_foldl_max ys y x hmem

theorem endBound_pos {M : List (List ℚ)}
    (hnz : ∃ row ∈ M, ∃ x ∈ row, x ≠ 0) : 0 < endBound M := by
  rcases hnz with ⟨row, hrow, x, hx, hxne⟩
  rcases lt_or_gt_of_ne hxne with hneg | hpos
  · have h1 : matMin M ≤ x := matMin_le hrow hx
    have h2 : 0 < |matMin M| := by
      rw [abs_pos]
      intro h0
      rw [h0] at h1
      exact absurd (lt_of_le_of_lt h1 hneg) (lt_irrefl 0)
    exact lt_of_lt_of_le h2 (le_max_left _ _)
  · have h1 : x ≤ matMax M := le_matMax hrow hx
    exact lt_of_lt_of_le (lt_of_lt_of_le hpos h1) (le_max_right _ _)

/-! ## Claim theorems for the Residue Score Heatmap -/

/-- C3 counterexample: the nonzero all-positive matrix `[[1, 2]]` has its
minimum 1 at position (0,0), but after division by
`end = max(|1|, 2) = 2` that cell holds `1/2`, not `-1`: only the extreme
that attains `end` is mapped to `±1`. -/
theorem C3_counterexample :
    (∃ row ∈ exScores, ∃ x ∈ row, x ≠ 0) ∧
      (exScores[0]?.bind fun r => r[0]?) = some (matMin exScores) ∧
      ((normalizeHeatmap exScores)[0]?.bind fun r => r[0]?) = some (1 / 2) ∧
      (1 / 2 : ℚ) ≠ -1 := by
  refine ⟨⟨[1, 2], by simp [exScores], 1, by simp, by norm_num⟩, ?_, ?_, by norm_num⟩
  · with_unfolding_all rfl
  · with_unfolding_all rfl

/-- C3 amended: for every nonzero score matrix, after dividing by
`end = max(|min|, max)` every entry lies in `[-1, 1]`; the entries at the
positions of the original maximum are exactly `+1` when `|min| ≤ max`
(i.e. when the maximum attains `end`), and the entries at the positions
of the original minimum are exactly `-1` when the minimum is negative and
`max ≤ |min|` (when the minimum attains `end`); both hold only in the
symmetric case `|min| = max`. -/
theorem C3_amended_normalize (M : List (List ℚ))
    (hnz : ∃ row ∈ M, ∃ x ∈ row, x ≠ 0) :
    (∀ row ∈ normalizeHeatmap M, ∀ y ∈ row, -1 ≤ y ∧ y ≤ 1) ∧
    (|matMin M| ≤ matMax M →
      ∀ (i j : Nat), (M[i]?.bind fun r => r[j]?) = some (matMax M) →
        ((normalizeHeatmap M)[i]?.bind fun r => r[j]?) = some 1) ∧
    (matMin M < 0 → matMax M ≤ |matMin M| →
      ∀ (i j : Nat), (M[i]?.bind fun r => r[j]?) = some (matMin M) →
        ((normalizeHeatmap M)[i]?.bind fun r => r[j]?) = some (-1)) := by
  have hend : 0 < endBound M := endBound_pos hnz
  refine ⟨?_, ?_, ?_⟩
  · intro row hrow y hy
    rcases List.mem_map.1 hrow with ⟨r0, hr0, rfl⟩
    rcases List.mem_map.1 hy with ⟨x, hx, rfl⟩
    constructor
    · rw [le_div_iff₀ hend]
      have h1 : |matMin M| ≤ endBound M := le_max_left _ _
      have h2 : -|matMin M| ≤ matMin M := neg_abs_le (matMin M)
      have h3 : matMin M ≤ x := matMin_le hr0 hx
      linarith
    · rw [div_le_one hend]
      exact le_trans (le_matMax hr0 hx) (le_max_right _ _)
  · intro hmx i j hij
    rcases hMi : M[i]? with _ | r
    · rw [hMi] at hij; simp at hij
    · rw [hMi] at hij
      simp only [Option.some_bind] at hij
      have hN : (normalizeHeatmap M)[i]? = some (r.map fun x => x / endBound M) := by
        rw [normalizeHeatmap, List.getElem?_map, hMi, Option.map_some']
      rw [hN]
      simp only [Option.some_bind, List.getElem?_map, hij, Option.map_some']
      have hEnd : endBound M = matMax M := max_eq_right hmx
      rw [hEnd, div_self (by rw [hEnd] at hend; exact ne_of_gt hend)]
  · intro hmn hmx i j hij
    rcases hMi : M[i]? with _ | r
    · rw [hMi] at hij; simp at hij
    · rw [hMi] at hij
      simp only [Option.some_bind] at hij
      have hN : (normalizeHeatmap M)[i]? = some (r.map fun x => x / endBound M) := by
        rw [normalizeHeatmap, List.getElem?_map, hMi, Option.map_some']
      rw [hN]
      simp only [Option.some_bind, List.getElem?_map, hij, Option.map_some']
      have hEnd : endBound M = -matMin M := by
        rw [endBound, abs_of_neg hmn]
        exact max_eq_left (by rwa [abs_of_neg hmn] at hmx)
      rw [hEnd]
      have : matMin M / -matMin M = -1 := by
        rw [div_neg, div_self (ne_of_lt hmn)]
      rw [this]

/-- C3 amended, witness: the matrix `[[1, 2]]` instantiates the amended
theorem; its maximum cell is mapped to `+1`. -/
theorem C3_amended_witness :
    ((normalizeHeatmap exScores)[0]?.bind fun r => r[1]?) = some 1 :=
  (C3_amended_normalize exScores
      ⟨[1, 2], by simp [exScores], 1, by simp, by norm_num⟩).2.1
    (by with_unfolding_all decide) 0 1 (by with_unfolding_all rfl)

/-- C5 counterexample: with `percentile_keep = 0` and a stored matrix
already in AnnData's default dtype (so `AnnData(adata.uns[key])` aliases
it), `residue_scores` divides the stored matrix in place: afterwards
`adata.uns[key]` holds `[[1/2, 1]]`, not the original `[[1, 2]]`. -/
theorem C5_counterexample :
    (residue_scores exScores true 0).2 = [[1 / 2, 1]] ∧
      ([[(1 : ℚ) / 2, 1]] : List (List ℚ)) ≠ exScores := by
  constructor
  · with_unfolding_all rfl
  · with_unfolding_all decide

/-- C5 amended: `residue_scores` leaves the stored score matrix unchanged
when the percentile filter is active (view plus copy-on-write) or when
the `AnnData` construction copied the array (dtype conversion); but when
`percentile_keep ≤ 0` and the stored array already has the default dtype,
the call overwrites the stored matrix with its normalized version —
reading is not idempotent in that case. -/
theorem C5_amended_uns_effect (stored : List (List ℚ)) (dtypeMatches : Bool)
    (pk : ℚ) :
    (0 < pk → (residue_scores stored dtypeMatches pk).2 = stored) ∧
    (¬ 0 < pk → dtypeMatches = false →
      (residue_scores stored dtypeMatches pk).2 = stored) ∧
    (¬ 0 < pk → dtypeMatches = true →
      (residue_scores stored dtypeMatches pk).2 = normalizeHeatmap stored) := by
  refine ⟨?_, ?_, ?_⟩
  · intro h
    simp only [residue_scores, if_pos h]
  · intro h hdm
    subst hdm
    simp only [residue_scores, if_neg h, Bool.false_eq_true, if_false]
  · intro h hdm
    subst hdm
    simp only [residue_scores, if_neg h, if_true]

/-- C5 amended, witness. -/
theorem C5_amended_witness :
    (residue_scores exScores true 0).2 = normalizeHeatmap exScores :=
  (C5_amended_uns_effect exScores true 0).2.2 (by norm_num) rfl

/-! ## Lemmas about the destructive auto-selection loop -/

theorem argminGo_spec {r c : Nat} (M : Cell r c → WithTop ℚ) :
    ∀ (l : List (Cell r c)) (best : Cell r c),
      (argminGo M l best = best ∨ argminGo M l best ∈ l) ∧
        M (argminGo M l best) ≤ M best ∧
        ∀ y ∈ l, M (argminGo M l best) ≤ M y := by
  intro l
  induction l with
  | nil => intro best; exact ⟨Or.inl rfl, le_refl _, by simp⟩
  | cons x xs ih =>
    intro best
    by_cases hx : M x < M best
    · have h := ih x
      simp only [argminGo, if_pos hx]
      refine ⟨?_, ?_, ?_⟩
      · rcases h.1 with h1 | h1
        · exact Or.inr (by rw [h1]; exact List.mem_cons_self x xs)
        · exact Or.inr (List.mem_cons_of_mem x h1)
      · exact le_trans h.2.1 (le_of_lt hx)
      · intro y hy
        rcases List.mem_cons.1 hy with rfl | hy
        · exact h.2.1
        · exact h.2.2 y hy
    · have h := ih best
      simp only [argminGo, if_neg hx]
      refine ⟨?_, h.2.1, ?_⟩
      · rcases h.1 with h1 | h1
        · exact Or.inl h1
        · exact Or.inr (List.mem_cons_of_mem x h1)
      · intro y hy
        rcases List.mem_cons.1 hy with rfl | hy
        · exact le_trans h.2.1 (le_of_not_lt hx)
        · exact h.2.2 y hy

theorem allCells_complete {r c : Nat} : ∀ e : Cell r c, e ∈ allCells r c := by
  intro e
  rcases e with ⟨i, j⟩
  rw [allCells]
  exact List.mem_flatMap.2 ⟨i, List.mem_finRange i,
    List.mem_map.2 ⟨j, List.mem_finRange j, rfl⟩⟩

theorem argminM_le {r c : Nat} {M : Cell r c → WithTop ℚ} {e : Cell r c}
    (h : argminM M = some e) : ∀ x, M e ≤ M x := by
  intro x
  have hx : x ∈ allCells r c := allCells_complete x
  rw [argminM] at h
  rcases ha : allCells r c with _ | ⟨y, ys⟩
  · rw [ha] at hx; simp at hx
  · rw [ha] at h
    have heq : argminGo M ys y = e := Option.some_inj.1 h
    rw [ha] at hx
    rcases List.mem_cons.1 hx with rfl | hx
    · rw [← heq]; exact (argminGo_spec M ys x).2.1
    · rw [← heq]; exact (argminGo_spec M ys y).2.2 x hx

theorem argminM_isSome {r c : Nat} (hr : 0 < r) (hc : 0 < c)
    (M : Cell r c → WithTop ℚ) : ∃ e, argminM M = some e := by
  have hmem : (⟨⟨0, hr⟩, ⟨0, hc⟩⟩ : Cell r c) ∈ allCells r c := allCells_complete _
  rw [argminM]
  rcases ha : allCells r c with _ | ⟨y, ys⟩
  · rw [ha] at hmem; simp at hmem
  · exact ⟨argminGo M ys y, rfl⟩

theorem selectLoop_success {r c : Nat} (n_plot : Nat) :
    ∀ (fuel : Nat) (S : Finset (Cell r c)) (M : Cell r c → WithTop ℚ)
      (seen : Finset (Fin r)),
      seen.card + S.card = n_plot →
      (∀ a ∈ S, ∀ b ∈ S, a.1 = b.1 → a = b) →
      (∀ a ∈ S, a.1 ∉ seen) →
      (∀ a ∈ S, ∀ b, b ∉ S → M a < M b) →
      (∀ a ∈ S, M a ≠ ⊤) →
      S.card ≤ fuel →
      selectLoop n_plot fuel M seen =
        .success (seen ∪ S.image Prod.fst) (fun x => if x ∈ S then ⊤ else M x) := by
  intro fuel
  induction fuel with
  | zero =>
    intro S M seen hcard _ _ _ _ hfuel
    have hS : S = ∅ := Finset.card_eq_zero.1 (Nat.le_zero.1 hfuel)
    subst hS
    simp only [Finset.card_empty, Nat.add_zero] at hcard
    rw [selectLoop, if_pos (le_of_eq hcard.symm)]
    have h1 : seen ∪ (∅ : Finset (Cell r c)).image Prod.fst = seen := by simp
    have h2 : (fun x => if x ∈ (∅ : Finset (Cell r c)) then ⊤ else M x) = M := by
      funext x; simp
    rw [h1, h2]
  | succ fuel ih =>
    intro S M seen hcard hinj hdisj hmin hne hfuel
    rcases S.eq_empty_or_nonempty with rfl | hSne
    · simp only [Finset.card_empty, Nat.add_zero] at hcard
      rw [selectLoop, if_pos (le_of_eq hcard.symm)]
      have h1 : seen ∪ (∅ : Finset (Cell r c)).image Prod.fst = seen := by simp
      have h2 : (fun x => if x ∈ (∅ : Finset (Cell r c)) then ⊤ else M x) = M := by
        funext x; simp
      rw [h1, h2]
    · rcases hSne with ⟨a0, ha0⟩
      have hSpos : 0 < S.card := Finset.card_pos.2 ⟨a0, ha0⟩
      have hlt : ¬ n_plot ≤ seen.card := by omega
      rcases argminM_isSome a0.1.pos a0.2.pos M with ⟨e, he⟩
      have heS : e ∈ S := by
        by_contra hcon
        have h1 : M a0 < M e := hmin a0 ha0 e hcon
        have h2 : M e ≤ M a0 := argminM_le he a0
        exact absurd (lt_of_le_of_lt h2 h1) (lt_irrefl _)
      rw [selectLoop, if_neg hlt, he]
      show selectLoop n_plot fuel (setTop M e) (insert e.1 seen) = _
      have hne1 : e.1 ∉ seen := hdisj e heS
      have hrec := ih (S.erase e) (setTop M e) (insert e.1 seen)
        (by rw [Finset.card_insert_of_not_mem hne1, Finset.card_erase_of_mem heS]; omega)
        (fun a ha b hb hab => hinj a (Finset.mem_of_mem_erase ha)
          b (Finset.mem_of_mem_erase hb) hab)
        (by
          intro a ha
          have haS : a ∈ S := Finset.mem_of_mem_erase ha
          have hane : a ≠ e := Finset.ne_of_mem_erase ha
          intro hmem
          rcases Finset.mem_insert.1 hmem with h1 | h1
          · exact hane (hinj a haS e heS h1)
          · exact hdisj a haS h1)
        (by
          intro a ha b hb
          have haS : a ∈ S := Finset.mem_of_mem_erase ha
          have hane : a ≠ e := Finset.ne_of_mem_erase ha
          by_cases hbe : b = e
          · subst hbe
            rw [setTop, if_neg hane, setTop, if_pos rfl]
            exact lt_of_le_of_ne le_top (hne a haS)
          · have hbS : b ∉ S := fun hbS => hb (Finset.mem_erase.2 ⟨hbe, hbS⟩)
            rw [setTop, if_neg hane, setTop, if_neg hbe]
            exact hmin a haS b hbS)
        (by
          intro a ha
          have hane : a ≠ e := Finset.ne_of_mem_erase ha
          rw [setTop, if_neg hane]
          exact hne a (Finset.mem_of_mem_erase ha))
        (by rw [Finset.card_erase_of_mem heS]; omega)
      rw [hrec]
      have hsets : insert e.1 seen ∪ (S.erase e).image Prod.fst =
          seen ∪ S.image Prod.fst := by
        ext x
        constructor
        · intro hx
          rcases Finset.mem_union.1 hx with hx | hx
          · rcases Finset.mem_insert.1 hx with rfl | hx
            · exact Finset.mem_union.2 (Or.inr (Finset.mem_image.2 ⟨e, heS, rfl⟩))
            · exact Finset.mem_union.2 (Or.inl hx)
          · rcases Finset.mem_image.1 hx with ⟨a, ha, rfl⟩
            exact Finset.mem_union.2 (Or.inr (Finset.mem_image.2
              ⟨a, Finset.mem_of_mem_erase ha, rfl⟩))
        · intro hx
          rcases Finset.mem_union.1 hx with hx | hx
          · exact Finset.mem_union.2 (Or.inl (Finset.mem_insert_of_mem hx))
          · rcases Finset.mem_image.1 hx with ⟨a, ha, rfl⟩
            by_cases hae : a = e
            · subst hae
              exact Finset.mem_union.2 (Or.inl (Finset.mem_insert_self _ _))
            · exact Finset.mem_union.2 (Or.inr (Finset.mem_image.2
                ⟨a, Finset.mem_erase.2 ⟨hae, ha⟩, rfl⟩))
      have hmats : (fun x => if x ∈ S.erase e then ⊤ else setTop M e x) =
          (fun x => if x ∈ S then ⊤ else M x) := by
        funext x
        by_cases hxe : x = e
        · subst hxe
          rw [if_neg (fun h => (Finset.mem_erase.1 h).1 rfl), setTop, if_pos rfl,
            if_pos heS]
        · by_cases hxS : x ∈ S
          · rw [if_pos (Finset.mem_erase.2 ⟨hxe, hxS⟩), if_pos hxS]
          · rw [if_neg (fun h => hxS (Finset.mem_of_mem_erase h)), setTop,
              if_neg hxe, if_neg hxS]
      rw [hsets, hmats]

/-! ## Claim theorems for the auto-selection loop -/

/-- C2: when the five lowest-valued cells of the score matrix (every
other cell being strictly larger) lie in five distinct rows, the
auto-selection with `n_plot = 5` stops after exactly those five
extractions: the recorded set is exactly the set of their rows, every
selected cell has been overwritten with the infinity sentinel (the other
cells are untouched), and `residue_categories` goes on to render those
rows sorted in ascending order.  Moreover (last conjunct) an iteration
whose global minimum lies in an already-recorded row changes nothing but
the overwritten cell: the row set stays as it is. -/
theorem C2_auto_selection {r c : Nat} (adata : CatData r c) (S : Finset (Cell r c))
    (fuel : Nat)
    (hcard : S.card = 5)
    (hinj : ∀ a ∈ S, ∀ b ∈ S, a.1 = b.1 → a = b)
    (hmin : ∀ a ∈ S, ∀ b, b ∉ S →
      ((adata.residue_scores a : WithTop ℚ) < (adata.residue_scores b : WithTop ℚ)))
    (hfuel : 5 ≤ fuel) :
    selectLoop 5 fuel (fun e => (adata.residue_scores e : WithTop ℚ)) ∅ =
        .success (S.image Prod.fst)
          (fun x => if x ∈ S then ⊤ else (adata.residue_scores x : WithTop ℚ)) ∧
      (S.image Prod.fst).card = 5 ∧
      (∀ e ∈ S,
        (fun x => if x ∈ S then ⊤ else (adata.residue_scores x : WithTop ℚ)) e = ⊤) ∧
      residue_categories fuel adata none 5 none =
        renderLoop adata none
          (fun x => if x ∈ S then ⊤ else (adata.residue_scores x : WithTop ℚ))
          (((S.image Prod.fst).sort (· ≤ ·)).map Fin.val) [] [] ∧
      (∀ (fuel2 : Nat) (M : Cell r c → WithTop ℚ) (seen : Finset (Fin r))
          (e : Cell r c),
        seen.card < 5 → argminM M = some e → e.1 ∈ seen →
        selectLoop 5 (fuel2 + 1) M seen = selectLoop 5 fuel2 (setTop M e) seen) := by
  have hmain := selectLoop_success 5 fuel S
    (fun e => (adata.residue_scores e : WithTop ℚ)) ∅
    (by simp [hcard]) hinj (by simp) hmin
    (fun a _ => WithTop.coe_ne_top) (hcard ▸ hfuel)
  rw [Finset.empty_union] at hmain
  refine ⟨hmain, ?_, ?_, ?_, ?_⟩
  · rw [Finset.card_image_of_injOn (fun a ha b hb hab => hinj a ha b hb hab), hcard]
  · intro e he
    simp [he]
  · simp only [residue_categories, residueCatSelect, hmain]
  · intro fuel2 M seen e hseen hargmin hmem
    rw [selectLoop, if_neg (by omega), hargmin]
    show selectLoop 5 fuel2 (setTop M e) (insert e.1 seen) = _
    rw [Finset.insert_eq_self.2 hmem]

/-- C2 witness: on the 5 × 1 matrix with values `0..4` (all five cells
are the five minima, in five distinct rows), the loop records all five
rows and overwrites every cell. -/
theorem C2_witness :
    selectLoop 5 5 (fun e => (exCat5.residue_scores e : WithTop ℚ)) ∅ =
      .success ((Finset.univ : Finset (Cell 5 1)).image Prod.fst)
        (fun x => if x ∈ (Finset.univ : Finset (Cell 5 1)) then ⊤
          else (exCat5.residue_scores x : WithTop ℚ)) :=
  (C2_auto_selection exCat5 Finset.univ 5 (by decide) (by decide)
    (fun a _ b hb => absurd (Finset.mem_univ b) hb) (by decide)).1

/-- C9 helper: with at least one column, `n_plot ≤ r`, and the invariant
that every sentinel cell lies in an already-recorded row, the loop stops
within one step more than the number of not-yet-overwritten cells. -/
theorem selectLoop_halts {r c : Nat} (n_plot : Nat) (hc : 0 < c) (hnr : n_plot ≤ r) :
    ∀ (k : Nat) (M : Cell r c → WithTop ℚ) (seen : Finset (Fin r)),
      cntNonTop M ≤ k →
      (∀ e : Cell r c, M e = ⊤ → e.1 ∈ seen) →
      selectLoop n_plot (k + 1) M seen ≠ .fuelOut := by
  intro k
  induction k with
  | zero =>
    intro M seen hcnt hinv
    have hall : ∀ e : Cell r c, M e = ⊤ := by
      intro e
      by_contra hcon
      have : e ∈ Finset.univ.filter fun x : Cell r c => M x ≠ ⊤ :=
        Finset.mem_filter.2 ⟨Finset.mem_univ e, hcon⟩
      have := Finset.card_pos.2 ⟨e, this⟩
      rw [cntNonTop] at hcnt
      omega
    have hstop : n_plot ≤ seen.card := by
      have huniv : seen = Finset.univ := by
        apply Finset.eq_univ_of_forall
        intro i
        exact hinv ⟨i, ⟨0, hc⟩⟩ (hall _)
      rw [huniv, Finset.card_univ, Fintype.card_fin]
      exact hnr
    rw [selectLoop, if_pos hstop]
    simp
  | succ k ih =>
    intro M seen hcnt hinv
    by_cases hstop : n_plot ≤ seen.card
    · rw [selectLoop, if_pos hstop]; simp
    · have hr : 0 < r := by omega
      rcases argminM_isSome hr hc M with ⟨e, he⟩
      by_cases hMe : M e = ⊤
      · exfalso
        have hall : ∀ x : Cell r c, M x = ⊤ := by
          intro x
          have := argminM_le he x
          rw [hMe] at this
          exact top_le_iff.1 this
        have huniv : seen = Finset.univ := by
          apply Finset.eq_univ_of_forall
          intro i
          exact hinv ⟨i, ⟨0, hc⟩⟩ (hall _)
        rw [huniv, Finset.card_univ, Fintype.card_fin] at hstop
        omega
      · rw [selectLoop, if_neg hstop, he]
        show selectLoop n_plot (k + 1) (setTop M e) (insert e.1 seen) ≠ .fuelOut
        apply ih
        · have hfilter : (Finset.univ.filter fun x : Cell r c => setTop M e x ≠ ⊤) =
              (Finset.univ.filter fun x : Cell r c => M x ≠ ⊤).erase e := by
            ext x
            simp only [Finset.mem_filter, Finset.mem_univ, true_and,
              Finset.mem_erase, setTop]
            by_cases hxe : x = e
            · subst hxe; simp
            · simp [hxe]
          have hmemf : e ∈ Finset.univ.filter fun x : Cell r c => M x ≠ ⊤ :=
            Finset.mem_filter.2 ⟨Finset.mem_univ e, hMe⟩
          rw [cntNonTop, hfilter, Finset.card_erase_of_mem hmemf]
          rw [cntNonTop] at hcnt
          have := Finset.card_pos.2 ⟨e, hmemf⟩
          omega
        · intro x hx
          by_cases hxe : x = e
          · subst hxe; exact Finset.mem_insert_self _ _
          · rw [setTop, if_neg hxe] at hx
            exact Finset.mem_insert_of_mem (hinv x hx)

/-- C9 helper: with fewer rows than `n_plot` the loop never exits: every
fuel bound is exhausted, i.e. the Python `while` loop runs forever. -/
theorem selectLoop_diverges {r c : Nat} (n_plot : Nat) (hr : 0 < r) (hc : 0 < c)
    (hgt : r < n_plot) :
    ∀ (fuel : Nat) (M : Cell r c → WithTop ℚ) (seen : Finset (Fin r)),
      selectLoop n_plot fuel M seen = .fuelOut := by
  intro fuel
  induction fuel with
  | zero =>
    intro M seen
    have hcard : seen.card ≤ r := by
      have := Finset.card_le_univ seen
      rwa [Fintype.card_fin] at this
    rw [selectLoop, if_neg (by omega)]
  | succ fuel ih =>
    intro M seen
    have hcard : seen.card ≤ r := by
      have := Finset.card_le_univ seen
      rwa [Fintype.card_fin] at this
    rcases argminM_isSome hr hc M with ⟨e, he⟩
    rw [selectLoop, if_neg (by omega), he]
    exact ih (setTop M e) (insert e.1 seen)

/-- C9: for a nonempty stored score matrix (finite float scores, so no
cell is the sentinel at entry), the auto-selection loop terminates — some
fuel bound suffices — if and only if `n_plot` is at most the number of
rows: once every cell is overwritten the global minimum sits in an
already-recorded row forever. -/
theorem C9_selection_terminates_iff {r c : Nat} (n_plot : Nat) (M0 : Cell r c → ℚ)
    (hr : 0 < r) (hc : 0 < c) :
    (∃ fuel, selectLoop n_plot fuel (fun e => (M0 e : WithTop ℚ)) ∅ ≠ SelRes.fuelOut) ↔
      n_plot ≤ r := by
  constructor
  · rintro ⟨fuel, hfuel⟩
    by_contra hcon
    exact hfuel (selectLoop_diverges n_plot hr hc (by omega) fuel _ ∅)
  · intro hle
    exact ⟨cntNonTop (fun e => (M0 e : WithTop ℚ)) + 1,
      selectLoop_halts n_plot hc hle _ _ ∅ (le_refl _)
        (fun e he => absurd he (WithTop.coe_ne_top))⟩

/-- C9 witness: the 5 × 1 matrix with `n_plot = 5` terminates. -/
theorem C9_witness :
    ∃ fuel, selectLoop 5 fuel (fun e => (exCat5.residue_scores e : WithTop ℚ)) ∅ ≠
      SelRes.fuelOut :=
  (C9_selection_terminates_iff 5 exCat5.residue_scores (by decide) (by decide)).mpr
    (by decide)

/-! ## Lemmas about the reference-alignment mapping -/

theorem pos2msaGo_cons_eq (raw : List Char) (ch : Char) (rest : List Char)
    (idx refIdx : Nat) (hch : ¬ ch = '-') (hget : raw[refIdx]? = some ch) :
    pos2msaGo raw (ch :: rest) idx refIdx =
      match pos2msaGo raw rest (idx + 1) (refIdx + 1) with
      | .error e => .error e
      | .ok tail => .ok ((refIdx, idx) :: tail) := by
  rw [pos2msaGo, if_neg hch, hget]
  simp only [if_pos (show ch = ch from rfl)]
  simp

theorem pos2msaGo_cons_ne (raw : List Char) (ch : Char) (rest : List Char)
    (idx refIdx : Nat) (hch : ¬ ch = '-') (c0 : Char) (hget : raw[refIdx]? = some c0)
    (hne : ch ≠ c0) :
    pos2msaGo raw (ch :: rest) idx refIdx = .error .assertFail := by
  rw [pos2msaGo, if_neg hch, hget]
  simp only [if_neg hne]

theorem pos2msaGo_ok (raw : List Char) :
    ∀ (msa : List Char) (idx refIdx : Nat),
      stripGaps msa = raw.drop refIdx →
      pos2msaGo raw msa idx refIdx =
        .ok (List.zip (List.range' refIdx (nonGapCols msa idx).length)
          (nonGapCols msa idx)) := by
  intro msa
  induction msa with
  | nil => intro idx refIdx _; rfl
  | cons ch rest ih =>
    intro idx refIdx hstrip
    by_cases hch : ch = '-'
    · have hs : stripGaps (ch :: rest) = stripGaps rest := by
        simp [stripGaps, hch]
      rw [hs] at hstrip
      have hng : nonGapCols (ch :: rest) idx = nonGapCols rest (idx + 1) := by
        rw [nonGapCols, if_pos hch]
      rw [pos2msaGo, if_pos hch, hng]
      exact ih (idx + 1) refIdx hstrip
    · have hs : stripGaps (ch :: rest) = ch :: stripGaps rest := by
        simp [stripGaps, hch]
      rw [hs] at hstrip
      have hget : raw[refIdx]? = some ch := by
        have h0 : (raw.drop refIdx)[0]? = some ch := by rw [← hstrip]; simp
        rwa [List.getElem?_drop, Nat.add_zero] at h0
      have hdrop : stripGaps rest = raw.drop (refIdx + 1) := by
        have h2 : (raw.drop refIdx).tail = raw.drop (refIdx + 1) := by
          rw [← List.drop_one, List.drop_drop, Nat.add_comm]
        rw [← h2, ← hstrip]
        rfl
      have hng : nonGapCols (ch :: rest) idx = idx :: nonGapCols rest (idx + 1) := by
        rw [nonGapCols, if_neg hch]
      rw [pos2msaGo_cons_eq raw ch rest idx refIdx hch hget,
        ih (idx + 1) (refIdx + 1) hdrop, hng]
      have hzip : List.zip (List.range' refIdx (idx :: nonGapCols rest (idx + 1)).length)
          (idx :: nonGapCols rest (idx + 1)) =
          (refIdx, idx) :: List.zip (List.range' (refIdx + 1)
            (nonGapCols rest (idx + 1)).length) (nonGapCols rest (idx + 1)) := by
        rw [List.length_cons, List.range'_succ]
        rfl
      rw [hzip]

theorem pos2msaGo_assert (raw : List Char) :
    ∀ (msa : List Char) (idx refIdx i : Nat),
      i < (stripGaps msa).length → refIdx + i < raw.length →
      (∀ j, j < i → (stripGaps msa).getD j ' ' = raw.getD (refIdx + j) ' ') →
      (stripGaps msa).getD i ' ' ≠ raw.getD (refIdx + i) ' ' →
      pos2msaGo raw msa idx refIdx = .error .assertFail := by
  intro msa
  induction msa with
  | nil => intro idx refIdx i hi _ _ _; simp [stripGaps] at hi
  | cons ch rest ih =>
    intro idx refIdx i hi hlen hpre hne
    by_cases hch : ch = '-'
    · have hs : stripGaps (ch :: rest) = stripGaps rest := by
        simp [stripGaps, hch]
      rw [hs] at hi hpre hne
      rw [pos2msaGo, if_pos hch]
      exact ih (idx + 1) refIdx i hi hlen hpre hne
    · have hs : stripGaps (ch :: rest) = ch :: stripGaps rest := by
        simp [stripGaps, hch]
      rw [hs] at hi hpre hne
      have hrefIdx : refIdx < raw.length := by omega
      have hget : raw[refIdx]? = some (raw.getD refIdx ' ') := by
        rw [List.getD_eq_getElem raw _ hrefIdx, List.getElem?_eq_getElem hrefIdx]
      rcases i with _ | i
      · have hchne : ch ≠ raw.getD (refIdx + 0) ' ' := by
          simpa using hne
        exact pos2msaGo_cons_ne raw ch rest idx refIdx hch _ hget
          (by rw [Nat.add_zero] at hchne; exact hchne)
      · have hch0 : ch = raw.getD refIdx ' ' := by
          have := hpre 0 (Nat.succ_pos i)
          simpa using this
        rw [pos2msaGo_cons_eq raw ch rest idx refIdx hch (by rw [hch0]; exact hget)]
        have hrec := ih (idx + 1) (refIdx + 1) i
          (by simpa using hi)
          (by omega)
          (by
            intro j hj
            have := hpre (j + 1) (by omega)
            simpa [Nat.add_comm, Nat.add_assoc, Nat.add_left_comm] using this)
          (by
            have := hne
            simpa [Nat.add_comm, Nat.add_assoc, Nat.add_left_comm] using this)
        rw [hrec]

/-- C6: when the gapped reference sequence with its gaps removed equals
the raw reference sequence, the reference-alignment mapping sends each
ungapped position `i` to the column of the `i`-th non-gap character of
the gapped sequence; and whenever the scanned non-gap characters diverge
from the raw sequence at some position (within both lengths), the scan
stops in the `assert` failure. -/
theorem C6_reference_alignment :
    (∀ raw msa : List Char, stripGaps msa = raw →
      buildPos2msa raw msa = .ok (nonGapCols msa 0).enum) ∧
    (∀ raw msa : List Char,
      (∃ i, i < (stripGaps msa).length ∧ i < raw.length ∧
        (stripGaps msa).getD i ' ' ≠ raw.getD i ' ') →
      buildPos2msa raw msa = .error .assertFail) := by
  constructor
  · intro raw msa hstrip
    rw [buildPos2msa, pos2msaGo_ok raw msa 0 0 (by simpa using hstrip)]
    rw [List.enum_eq_zip_range, List.range_eq_range']
  · intro raw msa hdiv
    have hex : ∃ i, i < (stripGaps msa).length ∧ i < raw.length ∧
        (stripGaps msa).getD i ' ' ≠ raw.getD i ' ' := hdiv
    classical
    let P : Nat → Prop := fun i => i < (stripGaps msa).length ∧ i < raw.length ∧
      (stripGaps msa).getD i ' ' ≠ raw.getD i ' '
    have hP : ∃ i, P i := hex
    let i0 := Nat.find hP
    have hi0 : P i0 := Nat.find_spec hP
    have hleast : ∀ j, j < i0 → ¬ P j := fun j hj => Nat.find_min hP hj
    rw [buildPos2msa]
    apply pos2msaGo_assert raw msa 0 0 i0 hi0.1 (by simpa using hi0.2.1)
    · intro j hj
      have hnotP := hleast j hj
      have hj1 : j < (stripGaps msa).length := by omega
      have hj2 : j < raw.length := by omega
      by_contra hcon
      exact hnotP ⟨hj1, hj2, by simpa using hcon⟩
    · simpa using hi0.2.2

/-- C6 witness: raw sequence `"AC"` against gapped `"A-C"` yields the
mapping `{0: 0, 1: 2}`, and the mismatched pair `"A"` / `"C"` raises the
assertion failure. -/
theorem C6_witness :
    buildPos2msa ['A', 'C'] ['A', '-', 'C'] = .ok [(0, 0), (1, 2)] ∧
      buildPos2msa ['A'] ['C'] = .error .assertFail := by
  constructor
  · exact (C6_reference_alignment.1 ['A', 'C'] ['A', '-', 'C'] rfl).trans rfl
  · exact C6_reference_alignment.2 ['A'] ['C'] ⟨0, by decide, by decide, by decide⟩

/-! ## Claim theorems about failed calls producing no output -/

theorem drawResolved_err {n : Nat} (coords? : Option (Fin n → ℚ × ℚ))
    (p : List (Fin n)) (axGiven : Bool) (size lw : ℚ) (e : DrawErr)
    (h : (drawResolved coords? p axGiven size lw).err = some e) :
    e = DrawErr.missingBasis ∧
      drawResolved coords? p axGiven size lw =
        ⟨some .missingBasis, !axGiven, []⟩ := by
  rcases coords? with _ | coords
  · refine ⟨?_, rfl⟩
    have : some DrawErr.missingBasis = some e := h
    exact (Option.some_inj.1 this).symm
  · simp [drawResolved] at h

/-- C7 amended: whenever one of the validation errors is raised, no
drawing call is issued and no file is written; however the Path Renderer
creates its fresh figure *before* the embedding check, so precisely the
missing-embedding error with no axis supplied leaves a newly created
(empty) drawing surface behind.  The Overlay's internal-consistency
failure happens before the selection scan and before any rendering, so
it writes no file, adds no observation column, and leaves the stored
score matrix untouched. -/
theorem C7_amended_failed_calls :
    (∀ (n : Nat) (adata : DrawData n) (path? : Option (List (Fin n)))
        (src tgt : Option (Fin n)) (axGiven : Bool) (size lw : ℚ) (e : DrawErr),
      (draw_path adata path? src tgt axGiven size lw).err = some e →
      (draw_path adata path? src tgt axGiven size lw).events = [] ∧
        (draw_path adata path? src tgt axGiven size lw).createdFigure =
          (decide (e = DrawErr.missingBasis) && !axGiven)) ∧
    (∀ (r c fuel : Nat) (adata : CatData r c) (positions? : Option (List Nat))
        (n_plot ri : Nat) (raw msa : List Char),
      adata.seq[ri]? = some raw → adata.seqs_msa[ri]? = some msa →
      buildPos2msa raw msa = .error .assertFail →
      residue_categories fuel adata positions? n_plot (some ri) =
        ⟨some .assertFail, [], [], fun e => (adata.residue_scores e : WithTop ℚ)⟩) := by
  constructor
  · intro n adata path? src tgt axGiven size lw e h
    rcases path? with _ | p
    · rcases src with _ | s
      · simp only [draw_path] at h ⊢
        have he : e = DrawErr.missingPathArgs := (Option.some_inj.1 h).symm
        subst he
        exact ⟨by simp, by simp⟩
      · rcases tgt with _ | t
        · simp only [draw_path] at h ⊢
          have he : e = DrawErr.missingPathArgs := (Option.some_inj.1 h).symm
          subst he
          exact ⟨by simp, by simp⟩
        · rcases hsp : shortest_path adata.velo s t with pe | pth
          · simp only [draw_path, hsp] at h ⊢
            have he : e = DrawErr.resolver pe := (Option.some_inj.1 h).symm
            subst he
            exact ⟨by simp, by simp⟩
          · simp only [draw_path, hsp] at h ⊢
            rcases drawResolved_err adata.obsm pth axGiven size lw e h with ⟨he, heq⟩
            subst he
            rw [heq]
            exact ⟨by simp, by simp⟩
    · simp only [draw_path] at h ⊢
      rcases drawResolved_err adata.obsm p axGiven size lw e h with ⟨he, heq⟩
      subst he
      rw [heq]
      exact ⟨by simp, by simp⟩
  · intro r c fuel adata positions? n_plot ri raw msa hseq hmsa hbuild
    simp only [residue_categories, hseq, hmsa, hbuild]

/-- C7 amended, witness: the concrete missing-embedding call issues no
drawing call but has created a figure, and the concrete mismatched
reference raises the assertion failure with no files, no new columns and
unchanged scores. -/
theorem C7_amended_witness :
    ((draw_path exDrawNoBasis (some [0]) none none false 15 (1 / 1000)).events = [] ∧
      (draw_path exDrawNoBasis (some [0]) none none false 15 (1 / 1000)).createdFigure =
        (decide (DrawErr.missingBasis = DrawErr.missingBasis) && !false)) ∧
    residue_categories 0 exCatBadRef none 5 (some 0) =
      ⟨some .assertFail, [], [], fun e => (exCatBadRef.residue_scores e : WithTop ℚ)⟩ :=
  ⟨C7_amended_failed_calls.1 1 exDrawNoBasis (some [0]) none none false 15
      (1 / 1000) .missingBasis rfl,
   C7_amended_failed_calls.2 1 1 0 exCatBadRef none 5 0 ['A'] ['C'] rfl rfl rfl⟩

end Evolocity
